import Mathlib

/-!
JOGO-DA-VELHA: the shared game state of `src/main.cpp`

A shallow embedding of the class `TicTacToe` (board, turn marker, terminal
flag, winner) and of its member functions, followed by the properties of the
move operation.

Two layers are modelled.

* The data layer (`TicTacToe.make_move` and friends) describes what one call
  does to the four data members.  A call whose wait predicate is false does
  not proceed (`MoveResult.waiting`); an index outside `[0,2]` is undefined
  behaviour of `std::array::operator[]` (`MoveResult.undefined`).  The data
  layer does not follow `board_mutex`: its accepted branch goes on to return
  `true` as if `display_board()` returned.  It allows every behaviour of the
  source and more, so it serves for properties of all behaviours.
* The lock layer (`make_move_locked`, `display_board_locked`) adds
  `board_mutex` as explicit state and follows every acquisition the source
  performs.  Here the accepted branch writes the same data and then stops in
  `display_board()`; what the source does on an accepted move is stated on
  this layer.

The two players of `main` are modelled on the data layer: `seq_step` is the control
flow of `Player::play_sequential` as a function of what its calls return, and
`TwoPlayers.step` interleaves the calls of both threads on the shared game.
-/

/-- The 3x3 board, `std::array<std::array<char, 3>, 3>`: `b i j` is `board[i][j]`. -/
abbrev Board := Fin 3 → Fin 3 → Char

/-- The data members of `class TicTacToe` (the mutex and the condition variable
are modelled in the lock layer). -/
structure TicTacToe where
  board : Board
  current_player : Char
  game_over : Bool
  winner : Char

namespace TicTacToe

/-- The constructor `TicTacToe()`: every row filled with `' '`, `current_player('X')`,
`game_over(false)`, `winner(' ')`. -/
def new : TicTacToe :=
  { board := fun _ _ => ' ', current_player := 'X', game_over := false, winner := ' ' }

/-- The assignment `board[row][col] = player`. -/
def write (b : Board) (row col : Fin 3) (player : Char) : Board :=
  fun i j => if i = row ∧ j = col then player else b i j

/-- The loop of `check_win`: for `i = 0, 1, 2`, return true on a full row `i`,
then on a full column `i`. -/
def check_win_loop (b : Board) (player : Char) : List (Fin 3) → Bool
  | [] => false
  | i :: rest =>
    if b i 0 = player ∧ b i 1 = player ∧ b i 2 = player then true
    else if b 0 i = player ∧ b 1 i = player ∧ b 2 i = player then true
    else check_win_loop b player rest

/-- The member function `check_win(player)`: rows and columns in the loop, then the
two diagonals. -/
def check_win (s : TicTacToe) (player : Char) : Bool :=
  if check_win_loop s.board player [0, 1, 2] then true
  else if s.board 0 0 = player ∧ s.board 1 1 = player ∧ s.board 2 2 = player then true
  else if s.board 0 2 = player ∧ s.board 1 1 = player ∧ s.board 2 0 = player then true
  else false

/-- The inner loop of `check_draw` over the cells of one row: `false` as soon as a
cell is `' '`. -/
def check_draw_row (b : Board) (i : Fin 3) : List (Fin 3) → Bool
  | [] => true
  | j :: rest => if b i j = ' ' then false else check_draw_row b i rest

/-- The outer loop of `check_draw` over the rows. -/
def check_draw_rows (b : Board) : List (Fin 3) → Bool
  | [] => true
  | i :: rest => if check_draw_row b i [0, 1, 2] then check_draw_rows b rest else false

/-- The member function `check_draw()`: true iff no cell is `' '`. -/
def check_draw (s : TicTacToe) : Bool :=
  check_draw_rows s.board [0, 1, 2]

/-- The member function `is_game_over()`. -/
def is_game_over (s : TicTacToe) : Bool := s.game_over

/-- The member function `get_winner()`. -/
def get_winner (s : TicTacToe) : Char := s.winner

/-- One printed row of `display_board`: each cell, `'.'` for `' '`, followed by a blank. -/
def display_row (b : Board) (i : Fin 3) : String :=
  String.join ([0, 1, 2].map fun j => String.mk [if b i j = ' ' then '.' else b i j, ' '])

/-- The text `display_board` sends to `std::cout`: three rows and an empty line.
It reads the board and writes no data member. -/
def display_board (s : TicTacToe) : List String :=
  ([0, 1, 2].map fun i => display_row s.board i) ++ [""]

/-- The wait predicate of `make_move`: `current_player == player && !game_over`. -/
def turn_pred (s : TicTacToe) (player : Char) : Bool :=
  decide (s.current_player = player) && !s.game_over

/-- The accepted branch of `make_move` (lines 43-53): write the cell, then
`check_win(player)` first, `check_draw()` second, otherwise flip the turn. -/
def place (s : TicTacToe) (player : Char) (row col : Fin 3) : TicTacToe :=
  let s1 := { s with board := write s.board row col player }
  if s1.check_win player then { s1 with game_over := true, winner := player }
  else if s1.check_draw then { s1 with game_over := true, winner := 'D' }
  else { s1 with current_player := if s1.current_player = 'X' then 'O' else 'X' }

end TicTacToe

/-- An `int` index into a `std::array<_, 3>`: defined only for `0, 1, 2`. -/
def index? (i : Int) : Option (Fin 3) :=
  if i = 0 then some 0 else if i = 1 then some 1 else if i = 2 then some 2 else none

/-- What one call of `make_move` does to the data members: it does not get past the
turn wait, it indexes the board out of range, or it runs through its body with a
boolean result in a new state.  For `returned true s` the state `s` is what the
accepted branch has written when it calls `display_board()`; that the call then
returns is an assumption of the data layer, not made in the lock layer. -/
inductive MoveResult where
  | waiting
  | undefined
  | returned (accepted : Bool) (s : TicTacToe)

namespace TicTacToe

/-- The member function `make_move(player, row, col)` on the data members, with the
`std::unique_lock`, `display_board()` and `notify_all` left out.  The waiting and the
rejected branch are those of the source; the accepted branch gives the data written
by lines 43-53 and takes lines 54-56 to go through, which `make_move_locked` does
not. -/
def make_move (s : TicTacToe) (player : Char) (row col : Int) : MoveResult :=
  if s.turn_pred player then
    match index? row, index? col with
    | some r, some c =>
      if s.board r c = ' ' then MoveResult.returned true (s.place player r c)
      else MoveResult.returned false s
    | _, _ => MoveResult.undefined
  else MoveResult.waiting

end TicTacToe

/-- One call of `make_move` as issued by an actor. -/
structure Call where
  player : Char
  row : Int
  col : Int

/-- The state after a sequence of calls.  A call that does not get past the
turn wait leaves the state as it is; an out-of-range index ends the defined
behaviour (`none`). -/
def run : TicTacToe → List Call → Option TicTacToe
  | s, [] => some s
  | s, c :: cs =>
    match s.make_move c.player c.row c.col with
    | MoveResult.waiting => run s cs
    | MoveResult.undefined => none
    | MoveResult.returned _ s1 => run s1 cs

/-- The symbols of the accepted moves (the calls that return `true`) of a
sequence of calls, in order.  The sequence is followed as far as its behaviour
is defined. -/
def accepted_moves : TicTacToe → List Call → List Char
  | _, [] => []
  | s, c :: cs =>
    match s.make_move c.player c.row c.col with
    | MoveResult.waiting => accepted_moves s cs
    | MoveResult.undefined => []
    | MoveResult.returned true s1 => c.player :: accepted_moves s1 cs
    | MoveResult.returned false s1 => accepted_moves s1 cs

/-- The states reachable from the freshly constructed game by calls of
`make_move` that return. -/
inductive Reachable : TicTacToe → Prop where
  | init : Reachable TicTacToe.new
  | step {s s1 : TicTacToe} {player : Char} {row col : Int} {accepted : Bool} :
      Reachable s → s.make_move player row col = MoveResult.returned accepted s1 →
      Reachable s1

/-- The other symbol, as in the turn flip `(current_player == 'X') ? 'O' : 'X'`. -/
def flip_player (p : Char) : Char := if p = 'X' then 'O' else 'X'

/-- The sequence `p, flip p, p, ...` of length `n`. -/
def alternating (p : Char) : Nat → List Char
  | 0 => []
  | n + 1 => p :: alternating (flip_player p) n

/-- The nine cells of a board in raster order. -/
def cells (b : Board) : List Char :=
  [b 0 0, b 0 1, b 0 2, b 1 0, b 1 1, b 1 2, b 2 0, b 2 1, b 2 2]

/-- The number of cells of the board that hold `p`. -/
def count_cells (b : Board) (p : Char) : Nat := (cells b).count p

/-- The eight lines of the grid: rows 0, 1, 2; columns 0, 1, 2; the main diagonal;
the anti-diagonal. -/
def lines : List (List (Fin 3 × Fin 3)) :=
  [[(0, 0), (0, 1), (0, 2)], [(1, 0), (1, 1), (1, 2)], [(2, 0), (2, 1), (2, 2)],
   [(0, 0), (1, 0), (2, 0)], [(0, 1), (1, 1), (2, 1)], [(0, 2), (1, 2), (2, 2)],
   [(0, 0), (1, 1), (2, 2)], [(0, 2), (1, 1), (2, 0)]]

/-- Some line of the grid has all three of its cells equal to `p`. -/
def has_line (b : Board) (p : Char) : Prop :=
  ∃ l ∈ lines, ∀ q ∈ l, b q.1 q.2 = p

instance (b : Board) (p : Char) : Decidable (has_line b p) := by
  unfold has_line; infer_instance

/-- A board given by its rows, for writing concrete positions. -/
def board_of_rows (rows : List (List Char)) : Board :=
  fun i j => (rows.getD i.val []).getD j.val ' '

/-- The scenario X:(0,0) O:(1,1) X:(0,1) O:(2,2) X:(0,2). -/
def win_scenario : List Call :=
  [⟨'X', 0, 0⟩, ⟨'O', 1, 1⟩, ⟨'X', 0, 1⟩, ⟨'O', 2, 2⟩, ⟨'X', 0, 2⟩]

/-- The scenario X:(0,0)(0,1)(1,2)(2,0)(2,2) and O:(0,2)(1,0)(1,1)(2,1), played in
alternation. -/
def draw_scenario : List Call :=
  [⟨'X', 0, 0⟩, ⟨'O', 0, 2⟩, ⟨'X', 0, 1⟩, ⟨'O', 1, 0⟩, ⟨'X', 1, 2⟩, ⟨'O', 1, 1⟩,
   ⟨'X', 2, 0⟩, ⟨'O', 2, 1⟩, ⟨'X', 2, 2⟩]

/-- An in-progress position with one empty cell, (2,2), in which `X` moving there
completes the main diagonal. -/
def last_cell_win : TicTacToe :=
  { board := board_of_rows [['X', 'O', 'X'], ['O', 'X', 'O'], ['O', 'X', ' ']],
    current_player := 'X', game_over := false, winner := ' ' }

/-- An in-progress position with one empty cell, (2,2), in which `X` moving there
completes no line. -/
def last_cell_draw : TicTacToe :=
  { board := board_of_rows [['X', 'X', 'O'], ['O', 'O', 'X'], ['X', 'O', ' ']],
    current_player := 'X', game_over := false, winner := ' ' }

/-- The state at the end of `win_scenario`, move by move. -/
def win_scenario_end : TicTacToe :=
  ((((TicTacToe.new.place 'X' 0 0).place 'O' 1 1).place 'X' 0 1).place 'O' 2 2).place 'X' 0 2

/-- The turn invariant of the game: the turn marker is a symbol; while the game is
in progress the marker is `'X'` with equal counts or `'O'` with one more `'X'`; once
the game is over the marker is still the symbol that moved last. -/
def turn_invariant (s : TicTacToe) : Prop :=
  (s.current_player = 'X' ∨ s.current_player = 'O') ∧
  (s.game_over = false →
    (s.current_player = 'X' → count_cells s.board 'X' = count_cells s.board 'O') ∧
    (s.current_player = 'O' → count_cells s.board 'X' = count_cells s.board 'O' + 1)) ∧
  (s.game_over = true →
    (s.current_player = 'X' → count_cells s.board 'X' = count_cells s.board 'O' + 1) ∧
    (s.current_player = 'O' → count_cells s.board 'X' = count_cells s.board 'O'))

/-! ## The lock layer -/

/-- The two threads started by `main`: `t1` runs player1, `t2` runs player2. -/
inductive Actor where
  | t1
  | t2
  deriving DecidableEq

/-- The game object together with the owner of `board_mutex` (`none`: free). -/
structure Monitor where
  game : TicTacToe
  board_mutex : Option Actor

/-- The outcome of `std::mutex::lock` for a caller: the mutex was free, it is
held by the other actor, or it is already held by the caller itself. -/
inductive LockResult where
  | acquired
  | busy
  | relock
  deriving DecidableEq

/-- Locking `board_mutex` as actor `a`. -/
def lock (owner : Option Actor) (a : Actor) : LockResult :=
  match owner with
  | none => LockResult.acquired
  | some b => if b = a then LockResult.relock else LockResult.busy

/-- How far a member function gets: it returns a value; it blocks on the mutex held
by the other actor; it is suspended in `turn_cv.wait` with the mutex released; it
locks the non-recursive `std::mutex` it already owns (undefined behaviour, a
self-deadlock on the usual implementations); or it indexes out of range. -/
inductive Progress (α : Type) where
  | done (value : α) (m : Monitor)
  | blocked_on_mutex (m : Monitor)
  | waiting_for_turn (m : Monitor)
  | relock (m : Monitor)
  | undefined

/-- The member function `display_board()` with its `std::lock_guard` on `board_mutex`:
acquire, print, release at scope exit. -/
def display_board_locked (a : Actor) (m : Monitor) : Progress (List String) :=
  match lock m.board_mutex a with
  | LockResult.acquired => Progress.done m.game.display_board { m with board_mutex := none }
  | LockResult.busy => Progress.blocked_on_mutex m
  | LockResult.relock => Progress.relock m

/-- The member function `make_move(player, row, col)` with every acquisition of
`board_mutex` it performs: the `std::unique_lock` at entry, the turn wait, the
accepted branch with its call of `display_board()`, then `notify_all` and the
release at scope exit. -/
def make_move_locked (a : Actor) (m : Monitor) (player : Char) (row col : Int) :
    Progress Bool :=
  match lock m.board_mutex a with
  | LockResult.busy => Progress.blocked_on_mutex m
  | LockResult.relock => Progress.relock m
  | LockResult.acquired =>
    let m1 : Monitor := { m with board_mutex := some a }
    if m1.game.turn_pred player then
      match index? row, index? col with
      | some r, some c =>
        if m1.game.board r c = ' ' then
          let m2 : Monitor := { m1 with game := m1.game.place player r c }
          match display_board_locked a m2 with
          | Progress.done _ m3 => Progress.done true { m3 with board_mutex := none }
          | Progress.blocked_on_mutex m3 => Progress.blocked_on_mutex m3
          | Progress.waiting_for_turn m3 => Progress.waiting_for_turn m3
          | Progress.relock m3 => Progress.relock m3
          | Progress.undefined => Progress.undefined
        else Progress.done false { m1 with board_mutex := none }
      | _, _ => Progress.undefined
    else Progress.waiting_for_turn { m1 with board_mutex := none }

/-- The member function `is_game_over()` with its `std::lock_guard` on `board_mutex`. -/
def is_game_over_locked (a : Actor) (m : Monitor) : Progress Bool :=
  match lock m.board_mutex a with
  | LockResult.acquired => Progress.done m.game.game_over { m with board_mutex := none }
  | LockResult.busy => Progress.blocked_on_mutex m
  | LockResult.relock => Progress.relock m

/-- The member function `get_winner()` with its `std::lock_guard` on `board_mutex`. -/
def get_winner_locked (a : Actor) (m : Monitor) : Progress Char :=
  match lock m.board_mutex a with
  | LockResult.acquired => Progress.done m.game.winner { m with board_mutex := none }
  | LockResult.busy => Progress.blocked_on_mutex m
  | LockResult.relock => Progress.relock m

/-- The monitor a call leaves behind, when its behaviour is defined. -/
def Progress.monitor? {α : Type} : Progress α → Option Monitor
  | Progress.done _ m => some m
  | Progress.blocked_on_mutex m => some m
  | Progress.waiting_for_turn m => some m
  | Progress.relock m => some m
  | Progress.undefined => none

/-- The thread of `main` that plays a symbol: `t1` runs the player of `'X'`, `t2` the
player of `'O'`. -/
def thread_of (player : Char) : Actor :=
  if player = 'X' then Actor.t1 else Actor.t2

/-- The monitor after a sequence of calls, each made by the thread of its symbol and
followed through its acquisitions of `board_mutex`.  A call that does not get
through leaves the monitor as it stopped. -/
def run_locked : Monitor → List Call → Option Monitor
  | m, [] => some m
  | m, c :: cs =>
    match (make_move_locked (thread_of c.player) m c.player c.row c.col).monitor? with
    | none => none
    | some m1 => run_locked m1 cs

/-- Where `Player::play_sequential` stands, by the call it makes next.
`outer i`: the `is_game_over()` of the outer loop condition, with `i < 3`;
`inner i j`: the `is_game_over()` of the inner loop condition, with `j < 3`;
`call i j`: inside `game.make_move(symbol, i, j)`; `done`: returned. -/
inductive SeqPc where
  | outer (i : Nat)
  | inner (i j : Nat)
  | call (i j : Nat)
  | done
  deriving DecidableEq

/-- Leaving the inner loop: `++i`, then `i < 3 && ...` (no call when `i < 3` fails). -/
def next_row (i : Nat) : SeqPc :=
  if i + 1 < 3 then SeqPc.outer (i + 1) else SeqPc.done

/-- After the body of the inner loop: `++j`, then `j < 3 && ...` (no call when `j < 3`
fails; the inner loop is then left). -/
def next_col (i j : Nat) : SeqPc :=
  if j + 1 < 3 then SeqPc.inner i (j + 1) else next_row i

/-- What `play_sequential` does that the game can see. -/
inductive SeqEvent where
  | check (over : Bool)
  | attempt (i j : Nat)
  | result (accepted : Bool)
  deriving DecidableEq

/-- One step of `play_sequential`: the pending call returns `answer`; the events are the
return of that call and, when the inner loop condition holds, the call of
`make_move(symbol, i, j)` that follows.  The result of `make_move` only decides
whether the actor sleeps; `++j` follows in both cases. -/
def seq_step (pc : SeqPc) (answer : Bool) : List SeqEvent × SeqPc :=
  match pc with
  | SeqPc.outer i =>
    ([SeqEvent.check answer], if answer then SeqPc.done else SeqPc.inner i 0)
  | SeqPc.inner i j =>
    if answer then ([SeqEvent.check true], next_row i)
    else ([SeqEvent.check false, SeqEvent.attempt i j], SeqPc.call i j)
  | SeqPc.call i j => ([SeqEvent.result answer], next_col i j)
  | SeqPc.done => ([], SeqPc.done)

/-- The events of `play_sequential` from `pc` when its calls return `answers` in order. -/
def seq_events : SeqPc → List Bool → List SeqEvent
  | _, [] => []
  | pc, a :: rest => (seq_step pc a).1 ++ seq_events (seq_step pc a).2 rest

/-- The coordinates passed to `make_move` among the events. -/
def attempts : List SeqEvent → List (Nat × Nat)
  | [] => []
  | SeqEvent.attempt i j :: rest => (i, j) :: attempts rest
  | _ :: rest => attempts rest

/-- The cells of the grid in raster order. -/
def raster : List (Nat × Nat) :=
  [(0, 0), (0, 1), (0, 2), (1, 0), (1, 1), (1, 2), (2, 0), (2, 1), (2, 2)]

/-- The number of raster cells `play_sequential` has left behind at `pc`. -/
def cursor : SeqPc → Nat
  | SeqPc.outer i => 3 * i
  | SeqPc.inner i j => 3 * i + j
  | SeqPc.call i j => 3 * i + j + 1
  | SeqPc.done => 9

/-- The loop variables of `pc` are within the loop bounds. -/
def SeqPc.valid : SeqPc → Prop
  | SeqPc.outer i => i < 3
  | SeqPc.inner i j => i < 3 ∧ j < 3
  | SeqPc.call i j => i < 3 ∧ j < 3
  | SeqPc.done => True

/-- Where `Player::play_random` stands: at the `is_game_over()` of its loop condition,
inside `game.make_move(symbol, row, col)` with the drawn coordinates, or returned. -/
inductive RndPc where
  | check
  | call (row col : Nat)
  | done
  deriving DecidableEq

/-- The two players of `main` on the shared game: `player1(game, 'X', "sequential")`
and `player2(game, 'O', "random")`. -/
structure TwoPlayers where
  game : TicTacToe
  player1 : SeqPc
  player2 : RndPc

/-- The system when both threads start. -/
def TwoPlayers.start : TwoPlayers :=
  { game := TicTacToe.new, player1 := SeqPc.outer 0, player2 := RndPc.check }

/-- A scheduling step: thread `t1` (player1) or thread `t2` (player2) makes its next
call; `row` and `col` are what `distribution(generator)` yields if player2 draws in
this step. -/
inductive Tick where
  | t1
  | t2 (row col : Fin 3)

/-- One scheduling step.  Each call of `is_game_over` and `make_move` runs as one
step of the monitor; a `make_move` whose wait predicate is false stays pending, and
the system is as before.  `none`: out-of-range index. -/
def TwoPlayers.step (σ : TwoPlayers) : Tick → Option TwoPlayers
  | Tick.t1 =>
    match σ.player1 with
    | SeqPc.call i j =>
      match σ.game.make_move 'X' i j with
      | MoveResult.waiting => some σ
      | MoveResult.undefined => none
      | MoveResult.returned accepted g =>
        some { σ with game := g, player1 := (seq_step (SeqPc.call i j) accepted).2 }
    | pc => some { σ with player1 := (seq_step pc σ.game.is_game_over).2 }
  | Tick.t2 row col =>
    match σ.player2 with
    | RndPc.check =>
      some { σ with player2 := if σ.game.is_game_over then RndPc.done
                               else RndPc.call row.val col.val }
    | RndPc.call r c =>
      match σ.game.make_move 'O' r c with
      | MoveResult.waiting => some σ
      | MoveResult.undefined => none
      | MoveResult.returned _ g => some { σ with game := g, player2 := RndPc.check }
    | RndPc.done => some σ

/-- The system after a schedule. -/
def TwoPlayers.run : TwoPlayers → List Tick → Option TwoPlayers
  | σ, [] => some σ
  | σ, t :: rest =>
    match σ.step t with
    | none => none
    | some σ1 => TwoPlayers.run σ1 rest

/-- A schedule in which player1 wins with row 0 while player2 is inside
`make_move('O', 2, 1)`, and then returns. -/
def blocked_schedule : List Tick :=
  [Tick.t1, Tick.t1, Tick.t1, Tick.t2 1 1, Tick.t2 0 0, Tick.t1, Tick.t1,
   Tick.t2 2 2, Tick.t2 0 0, Tick.t2 2 1, Tick.t2 0 0, Tick.t1, Tick.t1, Tick.t1]

/-- The events of player1 in one scheduling step: the return of the call it makes
and, when the inner loop condition holds, the call of `make_move` that follows.  A
`make_move` that stays pending and a step of player2 give none. -/
def TwoPlayers.events (σ : TwoPlayers) : Tick → List SeqEvent
  | Tick.t1 =>
    match σ.player1 with
    | SeqPc.call i j =>
      match σ.game.make_move 'X' i j with
      | MoveResult.returned accepted _ => [SeqEvent.result accepted]
      | _ => []
    | pc => (seq_step pc σ.game.is_game_over).1
  | Tick.t2 _ _ => []

/-- The events of player1 along a schedule: what `play_sequential` does when the
results of its calls are those of the game, with player2 moving in between. -/
def TwoPlayers.trace : TwoPlayers → List Tick → List SeqEvent
  | _, [] => []
  | σ, t :: rest =>
    match σ.step t with
    | none => []
    | some σ1 => σ.events t ++ TwoPlayers.trace σ1 rest

/-- The results of the `make_move` calls among the events. -/
def results : List SeqEvent → List Bool
  | [] => []
  | SeqEvent.result accepted :: rest => accepted :: results rest
  | _ :: rest => results rest

/-- A schedule in which `O` wins with column 1 while player1 stands at the inner loop
condition for (1,1): `X` takes (0,0), is rejected on (0,1), takes (0,2) and (1,0);
`O` takes (0,1), (1,1), (2,1). -/
def opponent_wins_schedule : List Tick :=
  [Tick.t1, Tick.t1, Tick.t1, Tick.t2 0 1, Tick.t2 0 0,
   Tick.t1, Tick.t1, Tick.t1, Tick.t1, Tick.t2 1 1, Tick.t2 0 0,
   Tick.t1, Tick.t1, Tick.t1, Tick.t2 2 1, Tick.t2 0 0, Tick.t1, Tick.t1]

/-- The cells for which a call of `make_move` by `p` has returned (true or false) in a
sequence of calls, in order. -/
def returned_cells (p : Char) : TicTacToe → List Call → List (Int × Int)
  | _, [] => []
  | s, c :: cs =>
    match s.make_move c.player c.row c.col with
    | MoveResult.waiting => returned_cells p s cs
    | MoveResult.undefined => []
    | MoveResult.returned _ s1 =>
      (if c.player = p then [(c.row, c.col)] else []) ++ returned_cells p s1 cs

/-- The winner and the board agree: while the game is in progress `winner` is `' '`,
no symbol has a line and some cell is empty; once it is over, either `winner` is
the one symbol that has a line, or `winner` is `'D'`, the board is full and no
symbol has a line. -/
def status_invariant (s : TicTacToe) : Prop :=
  (s.game_over = false →
    s.winner = ' ' ∧ ¬ has_line s.board 'X' ∧ ¬ has_line s.board 'O' ∧
      ¬ ∀ i j, s.board i j ≠ ' ') ∧
  (s.game_over = true →
    (s.winner = 'X' ∧ has_line s.board 'X' ∧ ¬ has_line s.board 'O') ∨
    (s.winner = 'O' ∧ has_line s.board 'O' ∧ ¬ has_line s.board 'X') ∨
    (s.winner = 'D' ∧ (∀ i j, s.board i j ≠ ' ') ∧ ¬ has_line s.board 'X' ∧
      ¬ has_line s.board 'O'))

/-! ## Basic facts -/

/-- Extensionality for game states. -/
theorem TicTacToe.ext_fields {s t : TicTacToe} (hb : s.board = t.board)
    (hc : s.current_player = t.current_player) (hg : s.game_over = t.game_over)
    (hw : s.winner = t.winner) : s = t := by
  cases s; cases t; simp_all

theorem index?_val (r : Fin 3) : index? (r.val : Int) = some r := by
  fin_cases r <;> rfl

theorem turn_pred_iff (s : TicTacToe) (player : Char) :
    s.turn_pred player = true ↔ s.current_player = player ∧ s.game_over = false := by
  simp [TicTacToe.turn_pred]

theorem make_move_blocked (s : TicTacToe) (player : Char) (row col : Int)
    (h : s.turn_pred player = false) : s.make_move player row col = MoveResult.waiting := by
  simp [TicTacToe.make_move, h]

theorem make_move_empty (s : TicTacToe) (player : Char) (r c : Fin 3)
    (ht : s.turn_pred player = true) (he : s.board r c = ' ') :
    s.make_move player r.val c.val = MoveResult.returned true (s.place player r c) := by
  simp [TicTacToe.make_move, ht, index?_val, he]

theorem make_move_occupied (s : TicTacToe) (player : Char) (r c : Fin 3)
    (ht : s.turn_pred player = true) (he : s.board r c ≠ ' ') :
    s.make_move player r.val c.val = MoveResult.returned false s := by
  simp [TicTacToe.make_move, ht, index?_val, he]

/-- Inversion of a returning call: the turn predicate held, both indices were in
range, and the call either rejected an occupied cell or placed the symbol. -/
theorem make_move_returned {s s1 : TicTacToe} {player : Char} {row col : Int}
    {accepted : Bool} (h : s.make_move player row col = MoveResult.returned accepted s1) :
    s.turn_pred player = true ∧ ∃ r c, index? row = some r ∧ index? col = some c ∧
      ((accepted = true ∧ s.board r c = ' ' ∧ s1 = s.place player r c) ∨
       (accepted = false ∧ s.board r c ≠ ' ' ∧ s1 = s)) := by
  unfold TicTacToe.make_move at h
  split at h
  next ht =>
    refine ⟨ht, ?_⟩
    split at h
    next r c hr hc =>
      refine ⟨r, c, hr, hc, ?_⟩
      split at h
      next he =>
        injection h with h1 h2
        exact Or.inl ⟨h1.symm, he, h2.symm⟩
      next he =>
        injection h with h1 h2
        exact Or.inr ⟨h1.symm, he, h2.symm⟩
    next => cases h
  next => cases h

theorem place_board (s : TicTacToe) (player : Char) (r c : Fin 3) :
    (s.place player r c).board = TicTacToe.write s.board r c player := by
  unfold TicTacToe.place
  simp only []
  split
  · rfl
  · split <;> rfl

theorem has_line_iff (b : Board) (p : Char) :
    has_line b p ↔
      (b 0 0 = p ∧ b 0 1 = p ∧ b 0 2 = p) ∨ (b 1 0 = p ∧ b 1 1 = p ∧ b 1 2 = p) ∨
      (b 2 0 = p ∧ b 2 1 = p ∧ b 2 2 = p) ∨ (b 0 0 = p ∧ b 1 0 = p ∧ b 2 0 = p) ∨
      (b 0 1 = p ∧ b 1 1 = p ∧ b 2 1 = p) ∨ (b 0 2 = p ∧ b 1 2 = p ∧ b 2 2 = p) ∨
      (b 0 0 = p ∧ b 1 1 = p ∧ b 2 2 = p) ∨ (b 0 2 = p ∧ b 1 1 = p ∧ b 2 0 = p) := by
  simp only [has_line, lines, List.mem_cons, List.mem_singleton, List.not_mem_nil, or_false,
    exists_eq_or_imp, forall_eq_or_imp, exists_eq_left, forall_eq]

theorem ite_true_eq_true_iff (c : Prop) [Decidable c] (e : Bool) :
    (if c then true else e) = true ↔ c ∨ e = true := by
  by_cases h : c <;> simp [h]

theorem check_win_eq_true_iff (s : TicTacToe) (player : Char) :
    s.check_win player = true ↔ has_line s.board player := by
  rw [has_line_iff]
  simp only [TicTacToe.check_win, TicTacToe.check_win_loop, ite_true_eq_true_iff,
    Bool.false_eq_true, or_false]
  generalize (s.board 0 0 = player ∧ s.board 0 1 = player ∧ s.board 0 2 = player) = r0
  generalize (s.board 1 0 = player ∧ s.board 1 1 = player ∧ s.board 1 2 = player) = r1
  generalize (s.board 2 0 = player ∧ s.board 2 1 = player ∧ s.board 2 2 = player) = r2
  generalize (s.board 0 0 = player ∧ s.board 1 0 = player ∧ s.board 2 0 = player) = c0
  generalize (s.board 0 1 = player ∧ s.board 1 1 = player ∧ s.board 2 1 = player) = c1
  generalize (s.board 0 2 = player ∧ s.board 1 2 = player ∧ s.board 2 2 = player) = c2
  generalize (s.board 0 0 = player ∧ s.board 1 1 = player ∧ s.board 2 2 = player) = d0
  generalize (s.board 0 2 = player ∧ s.board 1 1 = player ∧ s.board 2 0 = player) = d1
  tauto

theorem forall_fin3 (P : Fin 3 → Prop) : (∀ i, P i) ↔ P 0 ∧ P 1 ∧ P 2 := by
  constructor
  · intro h
    exact ⟨h 0, h 1, h 2⟩
  · intro h i
    fin_cases i
    · exact h.1
    · exact h.2.1
    · exact h.2.2

theorem ite_false_eq_true_iff (c : Prop) [Decidable c] (e : Bool) :
    (if c then false else e) = true ↔ ¬ c ∧ e = true := by
  by_cases h : c <;> simp [h]

theorem ite_else_false_eq_true_iff (c : Prop) [Decidable c] (e : Bool) :
    (if c then e else false) = true ↔ c ∧ e = true := by
  by_cases h : c <;> simp [h]

theorem check_draw_eq_true_iff (s : TicTacToe) :
    s.check_draw = true ↔ ∀ i j, s.board i j ≠ ' ' := by
  simp only [TicTacToe.check_draw, TicTacToe.check_draw_rows, TicTacToe.check_draw_row,
    forall_fin3, ite_false_eq_true_iff, ite_else_false_eq_true_iff, and_true, ne_eq]

theorem place_win (s : TicTacToe) (player : Char) (r c : Fin 3)
    (h : has_line (TicTacToe.write s.board r c player) player) :
    (s.place player r c).game_over = true ∧ (s.place player r c).winner = player ∧
      (s.place player r c).current_player = s.current_player := by
  have hw : TicTacToe.check_win { s with board := TicTacToe.write s.board r c player } player
      = true := (check_win_eq_true_iff _ _).2 h
  simp [TicTacToe.place, hw]

theorem place_draw (s : TicTacToe) (player : Char) (r c : Fin 3)
    (h : ¬ has_line (TicTacToe.write s.board r c player) player)
    (hf : ∀ i j, TicTacToe.write s.board r c player i j ≠ ' ') :
    (s.place player r c).game_over = true ∧ (s.place player r c).winner = 'D' ∧
      (s.place player r c).current_player = s.current_player := by
  have hw : TicTacToe.check_win { s with board := TicTacToe.write s.board r c player } player
      = false := by
    rw [← Bool.not_eq_true, check_win_eq_true_iff]; exact h
  have hd : TicTacToe.check_draw { s with board := TicTacToe.write s.board r c player }
      = true := (check_draw_eq_true_iff _).2 hf
  simp [TicTacToe.place, hw, hd]

theorem place_continue (s : TicTacToe) (player : Char) (r c : Fin 3)
    (h : ¬ has_line (TicTacToe.write s.board r c player) player)
    (hf : ¬ ∀ i j, TicTacToe.write s.board r c player i j ≠ ' ') :
    (s.place player r c).game_over = s.game_over ∧ (s.place player r c).winner = s.winner ∧
      (s.place player r c).current_player = flip_player s.current_player := by
  have hw : TicTacToe.check_win { s with board := TicTacToe.write s.board r c player } player
      = false := by
    rw [← Bool.not_eq_true, check_win_eq_true_iff]; exact h
  have hd : TicTacToe.check_draw { s with board := TicTacToe.write s.board r c player }
      = false := by
    rw [← Bool.not_eq_true, check_draw_eq_true_iff]; exact hf
  simp [TicTacToe.place, hw, hd, flip_player]

/-- The accepted branch either ends the game (keeping the turn marker) or flips
the turn marker and leaves the status as it was. -/
theorem place_cases (s : TicTacToe) (player : Char) (r c : Fin 3) :
    ((s.place player r c).game_over = true ∧
        (s.place player r c).current_player = s.current_player) ∨
      ((s.place player r c).game_over = s.game_over ∧
        (s.place player r c).winner = s.winner ∧
        (s.place player r c).current_player = flip_player s.current_player) := by
  by_cases h : has_line (TicTacToe.write s.board r c player) player
  · exact Or.inl ⟨(place_win s player r c h).1, (place_win s player r c h).2.2⟩
  · by_cases hf : ∀ i j, TicTacToe.write s.board r c player i j ≠ ' '
    · exact Or.inl ⟨(place_draw s player r c h hf).1, (place_draw s player r c h hf).2.2⟩
    · exact Or.inr (place_continue s player r c h hf)

theorem flip_player_ne (p : Char) : flip_player p ≠ p := by
  unfold flip_player
  split
  next h => rw [h]; decide
  next h => exact fun h1 => h h1.symm

theorem flip_player_X_or_O (p : Char) : flip_player p = 'X' ∨ flip_player p = 'O' := by
  unfold flip_player
  split
  · exact Or.inr rfl
  · exact Or.inl rfl

theorem alternating_chain (p : Char) (n : Nat) :
    List.Chain' (fun a b => a ≠ b) (alternating p n) := by
  induction n generalizing p with
  | zero => exact List.chain'_nil
  | succ n ih =>
    cases n with
    | zero => exact List.chain'_singleton p
    | succ k =>
      have h := ih (flip_player p)
      simp only [alternating] at h ⊢
      exact List.Chain'.cons (fun e => flip_player_ne p e.symm) h

/-- Once the game is over no call is accepted. -/
theorem accepted_moves_game_over (calls : List Call) (s : TicTacToe)
    (h : s.game_over = true) : accepted_moves s calls = [] := by
  induction calls with
  | nil => rfl
  | cons c cs ih =>
    have hb : s.make_move c.player c.row c.col = MoveResult.waiting :=
      make_move_blocked s _ _ _ (by simp [TicTacToe.turn_pred, h])
    simp only [accepted_moves, hb]
    exact ih

/-- From a state whose turn marker is a symbol, the accepted moves alternate,
starting with the turn marker. -/
theorem accepted_moves_alternating (calls : List Call) (s : TicTacToe)
    (hp : s.current_player = 'X' ∨ s.current_player = 'O') :
    accepted_moves s calls = alternating s.current_player (accepted_moves s calls).length := by
  induction calls generalizing s with
  | nil => rfl
  | cons c cs ih =>
    cases hm : s.make_move c.player c.row c.col with
    | waiting =>
      simp only [accepted_moves, hm]
      exact ih s hp
    | undefined =>
      simp only [accepted_moves, hm]
      rfl
    | returned accepted s1 =>
      obtain ⟨ht, r, k, -, -, hcase⟩ := make_move_returned hm
      rcases hcase with ⟨ha, -, hs1⟩ | ⟨ha, -, hs1⟩
      · subst ha
        simp only [accepted_moves, hm, List.length_cons, alternating]
        have hcp : s.current_player = c.player := ((turn_pred_iff s _).1 ht).1
        rw [hcp]
        congr 1
        rcases place_cases s c.player r k with ⟨hover, -⟩ | ⟨-, -, hflip⟩
        · rw [hs1, accepted_moves_game_over cs _ hover]
          rfl
        · have hcp1 : s1.current_player = flip_player c.player := by
            rw [hs1, hflip, hcp]
          have h1 := ih s1 (by rw [hcp1]; exact flip_player_X_or_O _)
          rw [hcp1] at h1
          exact h1
      · subst ha
        subst hs1
        simp only [accepted_moves, hm]
        exact ih s1 hp

/-- C1: for every sequence of `make_move` calls applied to the freshly constructed
game, the symbols of the accepted moves (the calls that return `true`), in order,
are `X, O, X, O, ...`: the first accepted move, if any, is by `'X'`, and no two
consecutive accepted moves are by the same symbol. -/
theorem accepted_moves_alternate_from_X (calls : List Call) :
    accepted_moves TicTacToe.new calls
        = alternating 'X' (accepted_moves TicTacToe.new calls).length ∧
      ((accepted_moves TicTacToe.new calls).head? = none ∨
        (accepted_moves TicTacToe.new calls).head? = some 'X') ∧
      List.Chain' (fun a b => a ≠ b) (accepted_moves TicTacToe.new calls) := by
  have h := accepted_moves_alternating calls TicTacToe.new (Or.inl rfl)
  have hx : TicTacToe.new.current_player = 'X' := rfl
  rw [hx] at h
  refine ⟨h, ?_, ?_⟩
  · rw [h]
    cases (accepted_moves TicTacToe.new calls).length with
    | zero => exact Or.inl rfl
    | succ n => exact Or.inr rfl
  · rw [h]
    exact alternating_chain _ _

/-- C1 at a concrete input: the calls of `win_scenario` with a call out of turn and a
call on an occupied cell in between; five moves are accepted, `X, O, X, O, X`. -/
theorem accepted_moves_alternate_from_X_witness :
    accepted_moves TicTacToe.new
        [⟨'X', 0, 0⟩, ⟨'X', 0, 1⟩, ⟨'O', 0, 0⟩, ⟨'O', 1, 1⟩, ⟨'X', 0, 1⟩, ⟨'O', 2, 2⟩,
         ⟨'X', 0, 2⟩, ⟨'O', 2, 1⟩] = ['X', 'O', 'X', 'O', 'X'] ∧
      List.Chain' (fun a b => a ≠ b) (accepted_moves TicTacToe.new
        [⟨'X', 0, 0⟩, ⟨'X', 0, 1⟩, ⟨'O', 0, 0⟩, ⟨'O', 1, 1⟩, ⟨'X', 0, 1⟩, ⟨'O', 2, 2⟩,
         ⟨'X', 0, 2⟩, ⟨'O', 2, 1⟩]) :=
  ⟨by decide, (accepted_moves_alternate_from_X _).2.2⟩

theorem write_occupied (b : Board) (r c i j : Fin 3) (p : Char)
    (he : b r c = ' ') (hc : b i j ≠ ' ') : TicTacToe.write b r c p i j = b i j := by
  unfold TicTacToe.write
  split
  next h =>
    obtain ⟨h1, h2⟩ := h
    subst h1
    subst h2
    exact absurd he hc
  next => rfl

/-- One returning call keeps every occupied cell. -/
theorem make_move_keeps_occupied {s s1 : TicTacToe} {player : Char} {row col : Int}
    {accepted : Bool} (h : s.make_move player row col = MoveResult.returned accepted s1)
    (i j : Fin 3) (hc : s.board i j ≠ ' ') : s1.board i j = s.board i j := by
  obtain ⟨-, r, c, -, -, hcase⟩ := make_move_returned h
  rcases hcase with ⟨-, he, hs1⟩ | ⟨-, -, hs1⟩
  · rw [hs1, place_board]
    exact write_occupied s.board r c i j player he hc
  · rw [hs1]

/-- A sequence of calls keeps every occupied cell. -/
theorem run_keeps_occupied (calls : List Call) (s s1 : TicTacToe)
    (h : run s calls = some s1) (i j : Fin 3) (hc : s.board i j ≠ ' ') :
    s1.board i j = s.board i j := by
  induction calls generalizing s with
  | nil =>
    simp only [run, Option.some.injEq] at h
    rw [h]
  | cons c cs ih =>
    cases hm : s.make_move c.player c.row c.col with
    | waiting =>
      simp only [run, hm] at h
      exact ih s h hc
    | undefined =>
      simp only [run, hm] at h
      cases h
    | returned accepted s2 =>
      simp only [run, hm] at h
      have h2 := make_move_keeps_occupied hm i j hc
      rw [ih s2 h (by rw [h2]; exact hc), h2]

/-- C2: a board cell that is non-empty before a `make_move` call holds the same
symbol after the call, and so after every sequence of calls: a cell, once written,
is never emptied and never changes symbol.  It holds from every state, reachable
or not. -/
theorem make_move_write_once (s : TicTacToe) :
    (∀ (player : Char) (row col : Int) (accepted : Bool) (s1 : TicTacToe),
        s.make_move player row col = MoveResult.returned accepted s1 →
        ∀ i j, s.board i j ≠ ' ' → s1.board i j = s.board i j) ∧
      (∀ (calls : List Call) (s1 : TicTacToe), run s calls = some s1 →
        ∀ i j, s.board i j ≠ ' ' → s1.board i j = s.board i j) :=
  ⟨fun _ _ _ _ _ h i j hc => make_move_keeps_occupied h i j hc,
   fun calls s1 h i j hc => run_keeps_occupied calls s s1 h i j hc⟩

/-- C2 at a concrete input: after `X` at (0,0), the accepted move of `O` at (1,1)
leaves cell (0,0) as it was. -/
theorem make_move_write_once_witness :
    (TicTacToe.new.place 'X' 0 0).board 0 0 ≠ ' ' ∧
      ((TicTacToe.new.place 'X' 0 0).place 'O' 1 1).board 0 0
        = (TicTacToe.new.place 'X' 0 0).board 0 0 :=
  ⟨by decide, (make_move_write_once (TicTacToe.new.place 'X' 0 0)).1 'O' 1 1 true
    ((TicTacToe.new.place 'X' 0 0).place 'O' 1 1) rfl 0 0 (by decide)⟩

/-- C3: in an in-progress state in which it is `player`'s turn, a call on an
in-range occupied cell returns `false` and leaves the board, `current_player`,
`game_over` and `winner` as they were. -/
theorem make_move_occupied_unchanged (s : TicTacToe) (player : Char) (r c : Fin 3)
    (hturn : s.current_player = player) (hprogress : s.game_over = false)
    (hocc : s.board r c ≠ ' ') :
    s.make_move player r.val c.val = MoveResult.returned false s :=
  make_move_occupied s player r c ((turn_pred_iff s player).2 ⟨hturn, hprogress⟩) hocc

/-- C3 at a concrete input: after `X` at (0,0), `O` calling on (0,0) is rejected
and nothing changes. -/
theorem make_move_occupied_unchanged_witness :
    (TicTacToe.new.place 'X' 0 0).make_move 'O' 0 0
      = MoveResult.returned false (TicTacToe.new.place 'X' 0 0) :=
  make_move_occupied_unchanged (TicTacToe.new.place 'X' 0 0) 'O' 0 0 (by decide) (by decide)
    (by decide)

theorem write_same (b : Board) (r c : Fin 3) (p : Char) : TicTacToe.write b r c p r c = p := by
  simp [TicTacToe.write]

theorem write_other (b : Board) (r c i j : Fin 3) (p : Char) (h : (i, j) ≠ (r, c)) :
    TicTacToe.write b r c p i j = b i j := by
  unfold TicTacToe.write
  split
  next h1 => exact absurd (Prod.ext h1.1 h1.2) h
  next => rfl

theorem run_game_over (calls : List Call) (s : TicTacToe) (h : s.game_over = true) :
    run s calls = some s := by
  induction calls with
  | nil => rfl
  | cons c cs ih =>
    have hb : s.make_move c.player c.row c.col = MoveResult.waiting :=
      make_move_blocked s _ _ _ (by simp [TicTacToe.turn_pred, h])
    simp only [run, hb]
    exact ih

theorem run_append (calls1 calls2 : List Call) (s : TicTacToe) :
    run s (calls1 ++ calls2) = (run s calls1).bind fun s1 => run s1 calls2 := by
  induction calls1 generalizing s with
  | nil => rfl
  | cons c cs ih =>
    cases hm : s.make_move c.player c.row c.col with
    | waiting => simp only [List.cons_append, run, hm]; exact ih s
    | undefined => simp only [List.cons_append, run, hm]; rfl
    | returned accepted s2 => simp only [List.cons_append, run, hm]; exact ih s2

/-- While the game is in progress along a run, `winner` keeps the value it had. -/
theorem run_winner_unset (calls : List Call) (s s1 : TicTacToe) (w : Char)
    (hs : s.game_over = false → s.winner = w) (h : run s calls = some s1) :
    s1.game_over = false → s1.winner = w := by
  induction calls generalizing s with
  | nil =>
    simp only [run, Option.some.injEq] at h
    rw [← h]; exact hs
  | cons c cs ih =>
    cases hm : s.make_move c.player c.row c.col with
    | waiting =>
      simp only [run, hm] at h
      exact ih s hs h
    | undefined =>
      simp only [run, hm] at h
      cases h
    | returned accepted s2 =>
      simp only [run, hm] at h
      refine ih s2 ?_ h
      obtain ⟨ht, r, k, -, -, hcase⟩ := make_move_returned hm
      rcases hcase with ⟨-, -, hs2⟩ | ⟨-, -, hs2⟩
      · intro hg
        rcases place_cases s c.player r k with ⟨hover, -⟩ | ⟨hsame, hw, -⟩
        · rw [hs2, hover] at hg; cases hg
        · rw [hs2, hw]
          exact hs ((turn_pred_iff s _).1 ht).2
      · rw [hs2]; exact hs

/-- C6: game status is monotonic and set at most once.  In a state with
`game_over == true` the proceed condition of `make_move` is false for every symbol,
so every call waits and every sequence of calls leaves the board, `current_player`,
`game_over` and `winner` as they are.  Along every run from the initial state, once
`game_over` is true or `winner` is no longer `' '`, the state reached stays the
state after any further calls. -/
theorem game_over_is_final :
    (∀ (s : TicTacToe) (player : Char) (row col : Int), s.game_over = true →
        s.turn_pred player = false ∧ s.make_move player row col = MoveResult.waiting) ∧
      (∀ (s : TicTacToe) (calls : List Call), s.game_over = true → run s calls = some s) ∧
      (∀ (calls1 calls2 : List Call) (s1 : TicTacToe), run TicTacToe.new calls1 = some s1 →
        (s1.game_over = true ∨ s1.winner ≠ ' ') →
        run TicTacToe.new (calls1 ++ calls2) = some s1) := by
  refine ⟨?_, ?_, ?_⟩
  · intro s player row col h
    have ht : s.turn_pred player = false := by simp [TicTacToe.turn_pred, h]
    exact ⟨ht, make_move_blocked s player row col ht⟩
  · intro s calls h
    exact run_game_over calls s h
  · intro calls1 calls2 s1 h1 hterm
    have hover : s1.game_over = true := by
      rcases hterm with h | h
      · exact h
      · cases hg : s1.game_over with
        | true => rfl
        | false =>
          exact absurd (run_winner_unset calls1 TicTacToe.new s1 ' ' (fun _ => rfl) h1 hg) h
    rw [run_append, h1]
    exact run_game_over calls2 s1 hover

/-- C6 at a concrete input: once `win_scenario` has ended the game, a further call
by `O` on the empty cell (2,1) waits, and the state is unchanged by it. -/
theorem game_over_is_final_witness :
    win_scenario_end.game_over = true ∧
      (win_scenario_end.turn_pred 'O' = false ∧
        win_scenario_end.make_move 'O' 2 1 = MoveResult.waiting) ∧
      run win_scenario_end [⟨'O', 2, 1⟩, ⟨'X', 2, 1⟩] = some win_scenario_end :=
  ⟨by decide, game_over_is_final.1 win_scenario_end 'O' 2 1 (by decide),
    game_over_is_final.2.1 win_scenario_end _ (by decide)⟩

/-- C7: `check_win(p)` returns true if and only if at least one of the eight lines
(rows 0, 1, 2; columns 0, 1, 2; the main diagonal; the anti-diagonal) has all three
of its cells equal to `p`.  It is a function of the board alone and returns only
the boolean: the body of `check_win` assigns to no data member. -/
theorem check_win_iff_full_line (s : TicTacToe) (p : Char) :
    s.check_win p = true ↔
      ∃ l ∈ [[((0 : Fin 3), (0 : Fin 3)), (0, 1), (0, 2)], [(1, 0), (1, 1), (1, 2)],
              [(2, 0), (2, 1), (2, 2)], [(0, 0), (1, 0), (2, 0)], [(0, 1), (1, 1), (2, 1)],
              [(0, 2), (1, 2), (2, 2)], [(0, 0), (1, 1), (2, 2)], [(0, 2), (1, 1), (2, 0)]],
        ∀ q ∈ l, s.board q.1 q.2 = p :=
  check_win_eq_true_iff s p

theorem count_cells_write (b : Board) (r c : Fin 3) (p q : Char)
    (he : b r c = ' ') (hq : q ≠ ' ') :
    count_cells (TicTacToe.write b r c p) q = count_cells b q + (if p = q then 1 else 0) := by
  have hq1 : ¬ (' ' = q) := fun h => hq h.symm
  fin_cases r <;> fin_cases c <;>
    simp [count_cells, cells, TicTacToe.write, List.count_cons] at he ⊢ <;>
    simp [he, hq1] <;> omega

theorem turn_invariant_place (s : TicTacToe) (r c : Fin 3) (hi : turn_invariant s)
    (hg : s.game_over = false) (he : s.board r c = ' ') :
    turn_invariant (s.place s.current_player r c) := by
  obtain ⟨hsym, hprog, -⟩ := hi
  obtain ⟨hx, ho⟩ := hprog hg
  have hcx := count_cells_write s.board r c s.current_player 'X' he (by decide)
  have hco := count_cells_write s.board r c s.current_player 'O' he (by decide)
  have hxo : ('X' : Char) ≠ 'O' := by decide
  unfold turn_invariant
  rw [place_board, hcx, hco]
  rcases place_cases s s.current_player r c with ⟨hover, hcp⟩ | ⟨hsame, -, hflip⟩
  · rw [hover, hcp]
    refine ⟨hsym, fun h => absurd h (by decide), fun _ => ⟨fun h => ?_, fun h => ?_⟩⟩
    · have := hx h
      simp [h, this]
    · have := ho h
      simp [h, this]
  · rw [hsame, hg, hflip]
    refine ⟨flip_player_X_or_O _, fun _ => ⟨fun h => ?_, fun h => ?_⟩, fun h => absurd h (by decide)⟩
    · rcases hsym with h1 | h1
      · rw [h1] at h; exact absurd h (by decide)
      · have := ho h1
        simp [h1, this]
    · rcases hsym with h1 | h1
      · have := hx h1
        simp [h1, this]
      · rw [h1] at h; exact absurd h (by decide)

/-- Every reachable state satisfies the turn invariant. -/
theorem reachable_turn_invariant (s : TicTacToe) (h : Reachable s) : turn_invariant s := by
  induction h with
  | init =>
    refine ⟨Or.inl rfl, fun _ => ⟨fun _ => by decide, fun h => absurd h (by decide)⟩,
      fun h => absurd h (by decide)⟩
  | step _ hm ih =>
    obtain ⟨ht, r, k, -, -, hcase⟩ := make_move_returned hm
    obtain ⟨hcp, hg⟩ := (turn_pred_iff _ _).1 ht
    rcases hcase with ⟨-, he, hs1⟩ | ⟨-, -, hs1⟩
    · rw [hs1, ← hcp]
      exact turn_invariant_place _ r k ih hg he
    · rw [hs1]; exact ih

theorem reachable_place (s : TicTacToe) (player : Char) (r c : Fin 3) (h : Reachable s)
    (ht : s.turn_pred player = true) (he : s.board r c = ' ') :
    Reachable (s.place player r c) :=
  Reachable.step h (make_move_empty s player r c ht he)

theorem reachable_win_scenario_end : Reachable win_scenario_end := by
  unfold win_scenario_end
  refine reachable_place _ _ _ _ ?_ (by decide) (by decide)
  refine reachable_place _ _ _ _ ?_ (by decide) (by decide)
  refine reachable_place _ _ _ _ ?_ (by decide) (by decide)
  refine reachable_place _ _ _ _ ?_ (by decide) (by decide)
  exact reachable_place _ _ _ _ Reachable.init (by decide) (by decide)

/-- C8: in every state reachable from the initial state by `make_move` calls, the
number of `'X'` cells minus the number of `'O'` cells is 0 or 1. -/
theorem reachable_count_difference (s : TicTacToe) (h : Reachable s) :
    count_cells s.board 'X' = count_cells s.board 'O' ∨
      count_cells s.board 'X' = count_cells s.board 'O' + 1 := by
  obtain ⟨hsym, hprog, hover⟩ := reachable_turn_invariant s h
  cases hg : s.game_over with
  | false =>
    rcases hsym with h1 | h1
    · exact Or.inl ((hprog hg).1 h1)
    · exact Or.inr ((hprog hg).2 h1)
  | true =>
    rcases hsym with h1 | h1
    · exact Or.inr ((hover hg).1 h1)
    · exact Or.inl ((hover hg).2 h1)

/-- C8 at a concrete input: at the end of `win_scenario` there are three `'X'` and
two `'O'`. -/
theorem reachable_count_difference_witness :
    count_cells win_scenario_end.board 'X' = 3 ∧ count_cells win_scenario_end.board 'O' = 2 ∧
      (count_cells win_scenario_end.board 'X' = count_cells win_scenario_end.board 'O' ∨
        count_cells win_scenario_end.board 'X' = count_cells win_scenario_end.board 'O' + 1) :=
  ⟨by decide, by decide, reachable_count_difference win_scenario_end reachable_win_scenario_end⟩

/-- On the data layer, where accepted moves return: while the game is in progress
`current_player == 'X'` iff the counts of `'X'` and `'O'` are equal; in a terminal
state the turn marker is the symbol that moved last, `current_player == 'X'` iff there
is one more `'X'` than `'O'`, because the ending move does not flip the turn. -/
theorem reachable_turn_marker_counts (s : TicTacToe) (h : Reachable s) :
    (s.game_over = false →
      (s.current_player = 'X' ↔ count_cells s.board 'X' = count_cells s.board 'O')) ∧
    (s.game_over = true →
      (s.current_player = 'X' ↔ count_cells s.board 'X' = count_cells s.board 'O' + 1)) := by
  obtain ⟨hsym, hprog, hover⟩ := reachable_turn_invariant s h
  constructor
  · intro hg
    refine ⟨(hprog hg).1, fun hc => ?_⟩
    rcases hsym with h1 | h1
    · exact h1
    · have := (hprog hg).2 h1
      omega
  · intro hg
    refine ⟨(hover hg).1, fun hc => ?_⟩
    rcases hsym with h1 | h1
    · exact h1
    · have := (hover hg).2 h1
      omega

/-- With the mutex already held by the caller, `display_board` cannot acquire it. -/
theorem display_board_locked_held (a : Actor) (m : Monitor) (h : m.board_mutex = some a) :
    display_board_locked a m = Progress.relock m := by
  simp [display_board_locked, lock, h]

/-- The lock layer against the data layer, from a free mutex: a call that waits for
its turn releases the mutex; a rejected call returns `false` with the mutex
released; a call whose move the data layer accepts has written the new state and
then locks `board_mutex` again inside `display_board` while holding it. -/
theorem make_move_locked_free (a : Actor) (g : TicTacToe) (player : Char) (row col : Int) :
    make_move_locked a ⟨g, none⟩ player row col =
      match g.make_move player row col with
      | MoveResult.waiting => Progress.waiting_for_turn ⟨g, none⟩
      | MoveResult.undefined => Progress.undefined
      | MoveResult.returned true g1 => Progress.relock ⟨g1, some a⟩
      | MoveResult.returned false g1 => Progress.done false ⟨g1, none⟩ := by
  unfold make_move_locked TicTacToe.make_move
  simp only [lock]
  split
  next ht =>
    split
    next r c hr hc =>
      split
      next he => simp [display_board_locked, lock, hr, hc]
      next he => simp [hr, hc]
    next hn =>
      cases hr : index? row with
      | none => simp
      | some r =>
        cases hc : index? col with
        | none => simp
        | some c => exact absurd hc (hn r c hr)
  next ht => rfl

/-- No call of `make_move` returns `true` in the lock layer, whoever holds the mutex. -/
theorem make_move_locked_never_true (a : Actor) (m m1 : Monitor) (player : Char)
    (row col : Int) : make_move_locked a m player row col ≠ Progress.done true m1 := by
  intro h
  unfold make_move_locked at h
  split at h
  · cases h
  · cases h
  · simp only at h
    split at h
    · split at h
      · split at h
        · rw [display_board_locked_held a _ rfl] at h
          cases h
        · cases h
      · cases h
    · cases h

/-- C10 on the code: with `board_mutex` free, thread `t1` calling
`make_move('X', 0, 0)` on the fresh game takes the mutex, writes the cell, flips the
turn, and then, inside `display_board`, locks the mutex it already holds; the call
does not reach `notify_all` or `return true`. -/
theorem make_move_locked_relocks_on_first_move :
    make_move_locked Actor.t1 ⟨TicTacToe.new, none⟩ 'X' 0 0
        = Progress.relock ⟨TicTacToe.new.place 'X' 0 0, some Actor.t1⟩ ∧
      display_board_locked Actor.t1 ⟨TicTacToe.new.place 'X' 0 0, some Actor.t1⟩
        = Progress.relock ⟨TicTacToe.new.place 'X' 0 0, some Actor.t1⟩ :=
  ⟨rfl, rfl⟩

/-! ## The two players -/

theorem TwoPlayers.run_schedule_append (ticks1 ticks2 : List Tick) (σ : TwoPlayers) :
    σ.run (ticks1 ++ ticks2) = (σ.run ticks1).bind fun σ1 => σ1.run ticks2 := by
  induction ticks1 generalizing σ with
  | nil => rfl
  | cons t rest ih =>
    cases h : σ.step t with
    | none => simp [TwoPlayers.run, h]
    | some σ1 => simp only [List.cons_append, TwoPlayers.run, h]; exact ih σ1

/-- Once the game is over, with player1 returned and player2 inside `make_move`, no
scheduling step changes anything: the wait predicate of player2 stays false. -/
theorem TwoPlayers.step_blocked (σ : TwoPlayers) (t : Tick) (r c : Nat)
    (h1 : σ.player1 = SeqPc.done) (h2 : σ.player2 = RndPc.call r c)
    (h3 : σ.game.game_over = true) : σ.step t = some σ := by
  obtain ⟨g, p1, p2⟩ := σ
  simp only at h1 h2 h3
  subst h1
  subst h2
  cases t with
  | t1 => simp [TwoPlayers.step, seq_step]
  | t2 row col =>
    have hb : g.make_move 'O' r c = MoveResult.waiting :=
      make_move_blocked g _ _ _ (by simp [TicTacToe.turn_pred, h3])
    simp [TwoPlayers.step, hb]

theorem TwoPlayers.run_blocked (ticks : List Tick) (σ : TwoPlayers) (r c : Nat)
    (h1 : σ.player1 = SeqPc.done) (h2 : σ.player2 = RndPc.call r c)
    (h3 : σ.game.game_over = true) : σ.run ticks = some σ := by
  induction ticks with
  | nil => rfl
  | cons t rest ih =>
    simp only [TwoPlayers.run, TwoPlayers.step_blocked σ t r c h1 h2 h3]
    exact ih

/-- C11 on the code: in the schedule `blocked_schedule` player1 completes row 0 while
player2 is suspended in the turn wait of `make_move('O', 2, 1)`.  The game is over
with winner `'X'`, player1 has returned, and the wait predicate of player2,
`current_player == 'O' && !game_over`, is false in the final state: however the
schedule goes on, player2 is still inside `make_move` and has not returned. -/
theorem blocked_player_never_returns :
    (TwoPlayers.start.run blocked_schedule).map
        (fun σ => (σ.player1, σ.player2, σ.game.game_over, σ.game.winner,
          σ.game.turn_pred 'O'))
      = some (SeqPc.done, RndPc.call 2 1, true, 'X', false) ∧
    ∀ ticks : List Tick,
      (TwoPlayers.start.run (blocked_schedule ++ ticks)).map
          (fun σ => (σ.player1, σ.player2, σ.game.game_over))
        = some (SeqPc.done, RndPc.call 2 1, true) := by
  have h0 : (TwoPlayers.start.run blocked_schedule).map
      (fun σ => (σ.player1, σ.player2, σ.game.game_over, σ.game.winner,
        σ.game.turn_pred 'O'))
      = some (SeqPc.done, RndPc.call 2 1, true, 'X', false) := by decide
  refine ⟨h0, fun ticks => ?_⟩
  rw [TwoPlayers.run_schedule_append]
  cases h : TwoPlayers.start.run blocked_schedule with
  | none => rw [h] at h0; cases h0
  | some σ =>
    rw [h] at h0
    simp only [Option.map_some', Option.some.injEq, Prod.mk.injEq] at h0
    obtain ⟨h1, h2, h3, -, -⟩ := h0
    simp only [Option.some_bind, TwoPlayers.run_blocked ticks σ 2 1 h1 h2 h3,
      Option.map_some', h1, h2, h3]

/-- C12: on a freshly constructed `TicTacToe` all nine cells are empty,
`current_player` is `'X'`, `is_game_over()` returns false and `get_winner()` returns
`' '`; in every state `is_game_over()` and `get_winner()` return the `game_over` and
`winner` fields, and, taking and releasing the free `board_mutex`, leave the board,
`current_player`, `game_over` and `winner` as they are. -/
theorem fresh_game_and_queries :
    (∀ i j, TicTacToe.new.board i j = ' ') ∧ TicTacToe.new.current_player = 'X' ∧
      TicTacToe.new.is_game_over = false ∧ TicTacToe.new.get_winner = ' ' ∧
      (∀ s : TicTacToe, s.is_game_over = s.game_over ∧ s.get_winner = s.winner) ∧
      (∀ (a : Actor) (s : TicTacToe),
        is_game_over_locked a ⟨s, none⟩ = Progress.done s.game_over ⟨s, none⟩ ∧
        get_winner_locked a ⟨s, none⟩ = Progress.done s.winner ⟨s, none⟩) :=
  ⟨fun _ _ => rfl, rfl, rfl, rfl, fun _ => ⟨rfl, rfl⟩, fun _ _ => ⟨rfl, rfl⟩⟩

/-! ## The sequential player -/

theorem seq_events_done (answers : List Bool) : seq_events SeqPc.done answers = [] := by
  induction answers with
  | nil => rfl
  | cons a rest ih => simpa [seq_events, seq_step] using ih

theorem attempts_append (l1 l2 : List SeqEvent) :
    attempts (l1 ++ l2) = attempts l1 ++ attempts l2 := by
  induction l1 with
  | nil => rfl
  | cons e rest ih =>
    cases e <;> simp [attempts, ih]

theorem seq_step_valid (pc : SeqPc) (a : Bool) (h : pc.valid) : (seq_step pc a).2.valid := by
  cases pc with
  | outer i =>
    cases a
    · exact ⟨h, by decide⟩
    · trivial
  | inner i j =>
    cases a
    · exact h
    · simp only [seq_step, if_true, next_row]
      split
      · assumption
      · trivial
  | call i j =>
    simp only [seq_step, next_col, next_row]
    split
    · exact ⟨h.1, by assumption⟩
    · split
      · assumption
      · trivial
  | done => trivial

/-- One step passes to `make_move` at most the cell under the cursor and moves the
cursor forward. -/
theorem seq_step_sublist (pc : SeqPc) (a : Bool) (h : pc.valid) :
    (attempts (seq_step pc a).1 ++ raster.drop (cursor (seq_step pc a).2)).Sublist
      (raster.drop (cursor pc)) := by
  cases pc with
  | outer i =>
    have hi : i < 3 := h
    interval_cases i <;> cases a <;> decide
  | inner i j =>
    obtain ⟨hi, hj⟩ : i < 3 ∧ j < 3 := h
    interval_cases i <;> interval_cases j <;> cases a <;> decide
  | call i j =>
    obtain ⟨hi, hj⟩ : i < 3 ∧ j < 3 := h
    interval_cases i <;> interval_cases j <;> cases a <;> decide
  | done => cases a <;> decide

/-- The coordinates passed to `make_move` from `pc` on are a subsequence of the
raster cells from the cursor on. -/
theorem attempts_sublist (answers : List Bool) (pc : SeqPc) (h : pc.valid) :
    (attempts (seq_events pc answers)).Sublist (raster.drop (cursor pc)) := by
  induction answers generalizing pc with
  | nil => exact List.nil_sublist _
  | cons a rest ih =>
    simp only [seq_events, attempts_append]
    exact ((ih _ (seq_step_valid pc a h)).append_left _).trans (seq_step_sublist pc a h)

/-- C13 as stated fails: after `X` at (0,0) and `O` at (0,1), player1 is inside
`make_move('X', 0, 1)`; the call returns `false` (the cell is occupied, nothing
changes in the game) and the scan goes on to the inner loop condition for (0,2):
the rejection has advanced the cursor. -/
theorem sequential_cursor_counterexample :
    (TwoPlayers.start.run [Tick.t1, Tick.t1, Tick.t1, Tick.t2 0 1, Tick.t2 0 0, Tick.t1]).map
        (fun σ => (σ.player1, cells σ.game.board, σ.game.current_player))
      = some (SeqPc.call 0 1, ['X', 'O', ' ', ' ', ' ', ' ', ' ', ' ', ' '], 'X') ∧
    (TwoPlayers.start.run
        [Tick.t1, Tick.t1, Tick.t1, Tick.t2 0 1, Tick.t2 0 0, Tick.t1, Tick.t1]).map
        (fun σ => (σ.player1, cells σ.game.board, σ.game.current_player))
      = some (SeqPc.inner 0 2, ['X', 'O', ' ', ' ', ' ', ' ', ' ', ' ', ' '], 'X') ∧
    seq_step (SeqPc.call 0 1) false = ([SeqEvent.result false], SeqPc.inner 0 2) := by
  decide

/-- C13, amended: when the `make_move(symbol, i, j)` of the sequential player returns,
accepted or rejected, the scan moves on in raster order: to the inner loop condition
for `(i, j + 1)`, or after the last column to the outer loop condition for row
`i + 1`, or after the last cell to the end.  The result of the call does not enter. -/
theorem sequential_cursor_advances (σ : TwoPlayers) (i j : Nat) (accepted : Bool)
    (g : TicTacToe) (hpc : σ.player1 = SeqPc.call i j)
    (hret : σ.game.make_move 'X' i j = MoveResult.returned accepted g) :
    ∃ σ1, σ.step Tick.t1 = some σ1 ∧ σ1.game = g ∧ σ1.player2 = σ.player2 ∧
      σ1.player1 = (if j + 1 < 3 then SeqPc.inner i (j + 1)
                    else if i + 1 < 3 then SeqPc.outer (i + 1) else SeqPc.done) := by
  refine ⟨{ σ with game := g, player1 := (seq_step (SeqPc.call i j) accepted).2 }, ?_, rfl,
    rfl, rfl⟩
  simp only [TwoPlayers.step, hpc, hret]

/-- C13, amended, at a concrete input: the occupied cell (0,1) is rejected and the
scan goes on to (0,2). -/
theorem sequential_cursor_advances_witness :
    ∃ σ1, (TwoPlayers.mk ((TicTacToe.new.place 'X' 0 0).place 'O' 0 1) (SeqPc.call 0 1)
        RndPc.check).step Tick.t1 = some σ1 ∧
      σ1.game = (TicTacToe.new.place 'X' 0 0).place 'O' 0 1 ∧ σ1.player2 = RndPc.check ∧
      σ1.player1 = SeqPc.inner 0 2 :=
  sequential_cursor_advances
    (TwoPlayers.mk ((TicTacToe.new.place 'X' 0 0).place 'O' 0 1) (SeqPc.call 0 1) RndPc.check)
    0 1 false ((TicTacToe.new.place 'X' 0 0).place 'O' 0 1) rfl rfl

/-! ## The accepted move and the status -/

/-- Writing `p` on a cell creates no line of another symbol. -/
theorem has_line_write_other (b : Board) (r c : Fin 3) (p q : Char) (hpq : p ≠ q)
    (h : has_line (TicTacToe.write b r c p) q) : has_line b q := by
  obtain ⟨l, hl, hall⟩ := h
  refine ⟨l, hl, fun x hx => ?_⟩
  have hx1 := hall x hx
  by_cases hrc : (x.1, x.2) = (r, c)
  · obtain ⟨h1, h2⟩ := Prod.mk.inj hrc
    rw [h1, h2, write_same] at hx1
    exact absurd hx1 hpq
  · rw [write_other b r c x.1 x.2 p hrc] at hx1
    exact hx1

theorem status_invariant_place (s : TicTacToe) (p : Char) (r c : Fin 3)
    (hi : status_invariant s) (hg : s.game_over = false) (hp : p = 'X' ∨ p = 'O') :
    status_invariant (s.place p r c) := by
  obtain ⟨hw, hx, ho, -⟩ := hi.1 hg
  have hxo : ('X' : Char) ≠ 'O' := by decide
  have hox : ('O' : Char) ≠ 'X' := by decide
  unfold status_invariant
  rw [place_board]
  by_cases hline : has_line (TicTacToe.write s.board r c p) p
  · obtain ⟨h1, h2, -⟩ := place_win s p r c hline
    rw [h1, h2]
    refine ⟨fun h => absurd h (by decide), fun _ => ?_⟩
    rcases hp with hp | hp
    · subst hp
      exact Or.inl ⟨rfl, hline, fun h => ho (has_line_write_other _ _ _ _ _ hxo h)⟩
    · subst hp
      exact Or.inr (Or.inl ⟨rfl, hline, fun h => hx (has_line_write_other _ _ _ _ _ hox h)⟩)
  · by_cases hfull : ∀ i j, TicTacToe.write s.board r c p i j ≠ ' '
    · obtain ⟨h1, h2, -⟩ := place_draw s p r c hline hfull
      rw [h1, h2]
      refine ⟨fun h => absurd h (by decide), fun _ => Or.inr (Or.inr ⟨rfl, hfull, ?_, ?_⟩)⟩
      · rcases hp with hp | hp
        · subst hp; exact hline
        · subst hp; exact fun h => hx (has_line_write_other _ _ _ _ _ hox h)
      · rcases hp with hp | hp
        · subst hp; exact fun h => ho (has_line_write_other _ _ _ _ _ hxo h)
        · subst hp; exact hline
    · obtain ⟨h1, h2, -⟩ := place_continue s p r c hline hfull
      rw [h1, h2, hg]
      refine ⟨fun _ => ⟨hw, ?_, ?_, hfull⟩, fun h => absurd h (by decide)⟩
      · rcases hp with hp | hp
        · subst hp; exact hline
        · subst hp; exact fun h => hx (has_line_write_other _ _ _ _ _ hox h)
      · rcases hp with hp | hp
        · subst hp; exact fun h => ho (has_line_write_other _ _ _ _ _ hxo h)
        · subst hp; exact hline

/-- Every reachable state satisfies the status invariant. -/
theorem reachable_status_invariant (s : TicTacToe) (h : Reachable s) : status_invariant s := by
  induction h with
  | init =>
    refine ⟨fun _ => ⟨rfl, by decide, by decide, by decide⟩, fun h => absurd h (by decide)⟩
  | step hr hm ih =>
    obtain ⟨ht, r, k, -, -, hcase⟩ := make_move_returned hm
    obtain ⟨hcp, hg⟩ := (turn_pred_iff _ _).1 ht
    rcases hcase with ⟨-, -, hs1⟩ | ⟨-, -, hs1⟩
    · rw [hs1]
      exact status_invariant_place _ _ r k ih hg (hcp ▸ (reachable_turn_invariant _ hr).1)
    · rw [hs1]; exact ih

/-- C16: in every state reachable from the initial state by `make_move` calls,
(i) `game_over` is false iff `winner == ' '`; (ii) for `p` in {`'X'`, `'O'`},
`winner == p` iff `check_win(p)` holds on the board, and `check_win('X')` and
`check_win('O')` do not both hold; (iii) `winner == 'D'` iff the board is full and
neither `check_win('X')` nor `check_win('O')` holds; (iv) if the board is full then
`game_over` is true. -/
theorem reachable_winner_matches_board (s : TicTacToe) (h : Reachable s) :
    (s.game_over = false ↔ s.winner = ' ') ∧
      (∀ p, p = 'X' ∨ p = 'O' → (s.winner = p ↔ s.check_win p = true)) ∧
      ¬ (s.check_win 'X' = true ∧ s.check_win 'O' = true) ∧
      (s.winner = 'D' ↔
        ((∀ i j, s.board i j ≠ ' ') ∧ s.check_win 'X' = false ∧ s.check_win 'O' = false)) ∧
      ((∀ i j, s.board i j ≠ ' ') → s.game_over = true) := by
  obtain ⟨hprog, hover⟩ := reachable_status_invariant s h
  have hX : s.check_win 'X' = true ↔ has_line s.board 'X' := check_win_eq_true_iff s 'X'
  have hO : s.check_win 'O' = true ↔ has_line s.board 'O' := check_win_eq_true_iff s 'O'
  have hXf : s.check_win 'X' = false ↔ ¬ has_line s.board 'X' := by
    rw [← hX, Bool.not_eq_true]
  have hOf : s.check_win 'O' = false ↔ ¬ has_line s.board 'O' := by
    rw [← hO, Bool.not_eq_true]
  rw [hX, hO, hXf, hOf]
  have hxo : ('X' : Char) ≠ 'O' := by decide
  have hxd : ('X' : Char) ≠ 'D' := by decide
  have hod : ('O' : Char) ≠ 'D' := by decide
  have hxb : ('X' : Char) ≠ ' ' := by decide
  have hob : ('O' : Char) ≠ ' ' := by decide
  have hdb : ('D' : Char) ≠ ' ' := by decide
  cases hg : s.game_over with
  | false =>
    obtain ⟨hw, hx, ho, hnf⟩ := hprog hg
    refine ⟨⟨fun _ => hw, fun _ => rfl⟩, ?_, fun hc => hx hc.1, ?_, fun hf => absurd hf hnf⟩
    · intro p hp
      rcases hp with hp | hp
      · subst hp
        rw [hX, hw]
        exact ⟨fun e => absurd e.symm hxb, fun e => absurd e hx⟩
      · subst hp
        rw [hO, hw]
        exact ⟨fun e => absurd e.symm hob, fun e => absurd e ho⟩
    · rw [hw]
      exact ⟨fun e => absurd e.symm hdb, fun e => absurd e.1 hnf⟩
  | true =>
    rcases hover hg with ⟨hw, hx, ho⟩ | ⟨hw, ho, hx⟩ | ⟨hw, hf, hx, ho⟩
    · refine ⟨⟨fun e => absurd e (by decide), fun e => absurd (hw ▸ e) hxb⟩, ?_, fun hc => ho hc.2,
        ?_, fun _ => rfl⟩
      · intro p hp
        rcases hp with hp | hp
        · subst hp
          rw [hX]
          exact ⟨fun _ => hx, fun _ => hw⟩
        · subst hp
          rw [hO, hw]
          exact ⟨fun e => absurd e hxo, fun e => absurd e ho⟩
      · rw [hw]
        exact ⟨fun e => absurd e hxd, fun e => absurd hx e.2.1⟩
    · refine ⟨⟨fun e => absurd e (by decide), fun e => absurd (hw ▸ e) hob⟩, ?_, fun hc => hx hc.1,
        ?_, fun _ => rfl⟩
      · intro p hp
        rcases hp with hp | hp
        · subst hp
          rw [hX, hw]
          exact ⟨fun e => absurd e.symm hxo, fun e => absurd e hx⟩
        · subst hp
          rw [hO]
          exact ⟨fun _ => ho, fun _ => hw⟩
      · rw [hw]
        exact ⟨fun e => absurd e hod, fun e => absurd ho e.2.2⟩
    · refine ⟨⟨fun e => absurd e (by decide), fun e => absurd (hw ▸ e) hdb⟩, ?_, fun hc => hx hc.1,
        ⟨fun _ => ⟨hf, hx, ho⟩, fun _ => hw⟩, fun _ => rfl⟩
      intro p hp
      rcases hp with hp | hp
      · subst hp
        rw [hX, hw]
        exact ⟨fun e => absurd e.symm hxd, fun e => absurd e hx⟩
      · subst hp
        rw [hO, hw]
        exact ⟨fun e => absurd e.symm hod, fun e => absurd e ho⟩

/-- C16 at a concrete input: at the end of `win_scenario` the winner is `'X'`,
`check_win('X')` holds and `check_win('O')` does not. -/
theorem reachable_winner_matches_board_witness :
    win_scenario_end.check_win 'X' = true ∧ win_scenario_end.check_win 'O' = false ∧
      (win_scenario_end.winner = 'X' ↔ win_scenario_end.check_win 'X' = true) :=
  ⟨by decide, by decide,
    (reachable_winner_matches_board win_scenario_end reachable_win_scenario_end).2.1 'X'
      (Or.inl rfl)⟩

/-! ## The exhausted scan -/

theorem reachable_run (calls : List Call) (s s1 : TicTacToe) (hr : Reachable s)
    (h : run s calls = some s1) : Reachable s1 := by
  induction calls generalizing s with
  | nil =>
    simp only [run, Option.some.injEq] at h
    rw [← h]; exact hr
  | cons c cs ih =>
    cases hm : s.make_move c.player c.row c.col with
    | waiting =>
      simp only [run, hm] at h
      exact ih s hr h
    | undefined =>
      simp only [run, hm] at h
      cases h
    | returned accepted s2 =>
      simp only [run, hm] at h
      exact ih s2 (Reachable.step hr hm) h

/-- A cell for which a call has returned is in range and occupied from then on. -/
theorem returned_cells_occupied (p : Char) (calls : List Call) (s s1 : TicTacToe)
    (hr : Reachable s) (h : run s calls = some s1) (row col : Int)
    (hm : (row, col) ∈ returned_cells p s calls) :
    ∃ r c, index? row = some r ∧ index? col = some c ∧ s1.board r c ≠ ' ' := by
  induction calls generalizing s with
  | nil => simp [returned_cells] at hm
  | cons c cs ih =>
    cases hmv : s.make_move c.player c.row c.col with
    | waiting =>
      simp only [run, hmv] at h
      simp only [returned_cells, hmv] at hm
      exact ih s hr h hm
    | undefined =>
      simp only [run, hmv] at h
      cases h
    | returned accepted s2 =>
      simp only [run, hmv] at h
      simp only [returned_cells, hmv, List.mem_append] at hm
      rcases hm with hm | hm
      · split at hm
        next hp =>
          simp only [List.mem_singleton, Prod.mk.injEq] at hm
          obtain ⟨hrow, hcol⟩ := hm
          obtain ⟨ht, r, k, hir, hik, hcase⟩ := make_move_returned hmv
          refine ⟨r, k, hrow ▸ hir, hcol ▸ hik, ?_⟩
          have hocc : s2.board r k ≠ ' ' := by
            rcases hcase with ⟨-, -, hs2⟩ | ⟨-, hne, hs2⟩
            · rw [hs2, place_board, write_same]
              have hcp := ((turn_pred_iff s _).1 ht).1
              rcases (reachable_turn_invariant s hr).1 with hx | hx
              · rw [← hcp, hx]; decide
              · rw [← hcp, hx]; decide
            · rw [hs2]; exact hne
          rw [run_keeps_occupied cs s2 s1 h r k hocc]
          exact hocc
        next => simp at hm
      · exact ih s2 (Reachable.step hr hmv) h hm

/-- On the data layer: for every sequence of `make_move` calls by both symbols from
the initial state, if a call of the symbol `p` has returned, true or false, for each
of the nine cells (0,0)..(2,2), then the board is full and `game_over` is true. -/
theorem exhausted_scan_game_over (p : Char) (calls : List Call) (s1 : TicTacToe)
    (hrun : run TicTacToe.new calls = some s1)
    (hall : ∀ r c : Fin 3,
      ((r.val : Int), (c.val : Int)) ∈ returned_cells p TicTacToe.new calls) :
    (∀ i j, s1.board i j ≠ ' ') ∧ s1.game_over = true := by
  have hfull : ∀ i j, s1.board i j ≠ ' ' := by
    intro i j
    obtain ⟨r, c, hr, hc, hocc⟩ :=
      returned_cells_occupied p calls TicTacToe.new s1 Reachable.init hrun _ _ (hall i j)
    rw [index?_val] at hr hc
    rw [Option.some.inj hr, Option.some.inj hc]
    exact hocc
  refine ⟨hfull, ?_⟩
  have hinv := reachable_status_invariant s1 (reachable_run calls _ s1 Reachable.init hrun)
  cases hg : s1.game_over with
  | true => rfl
  | false => exact absurd hfull (hinv.1 hg).2.2.2


/-! ## Accepted moves in the lock layer -/

/-- With `board_mutex` free, a call on an empty in-range cell in its turn writes the
data of the accepted branch and then stops in `display_board()`, holding the mutex. -/
theorem make_move_locked_accepted (a : Actor) (s : TicTacToe) (player : Char) (r c : Fin 3)
    (hturn : s.current_player = player) (hprogress : s.game_over = false)
    (hempty : s.board r c = ' ') :
    make_move_locked a ⟨s, none⟩ player r.val c.val
      = Progress.relock ⟨s.place player r c, some a⟩ := by
  rw [make_move_locked_free,
    make_move_empty s player r c ((turn_pred_iff s player).2 ⟨hturn, hprogress⟩) hempty]

/-- C4 on the code: the winning move writes `game_over = true` and `winner = player`
(on the last empty cell of `last_cell_win` the winner written is `'X'`, not `'D'`),
but the call then locks `board_mutex` again in `display_board()` and does not return.
In the scenario X:(0,0) O:(1,1) X:(0,1) O:(2,2) X:(0,2) from the initial state the
first call stops there with the mutex held, the call of `O` blocks on the mutex,
and after the five calls the board holds one `'X'`, the game is not over and the
winner is still `' '`. -/
theorem win_scenario_stops_at_first_move :
    (run_locked ⟨TicTacToe.new, none⟩ win_scenario).map
        (fun m => (m.board_mutex, m.game.game_over, m.game.winner, cells m.game.board))
      = some (some Actor.t1, false, ' ', ['X', ' ', ' ', ' ', ' ', ' ', ' ', ' ', ' ']) ∧
    make_move_locked Actor.t2 ⟨TicTacToe.new.place 'X' 0 0, some Actor.t1⟩ 'O' 1 1
      = Progress.blocked_on_mutex ⟨TicTacToe.new.place 'X' 0 0, some Actor.t1⟩ ∧
    make_move_locked Actor.t1 ⟨last_cell_win, none⟩ 'X' 2 2
      = Progress.relock ⟨last_cell_win.place 'X' 2 2, some Actor.t1⟩ ∧
    (last_cell_win.place 'X' 2 2).game_over = true ∧
    (last_cell_win.place 'X' 2 2).winner = 'X' :=
  ⟨by decide, rfl, rfl, by decide, by decide⟩

/-- C5 on the code: on the last empty cell of `last_cell_draw` the move of `X`
completes no line and writes `game_over = true` and `winner = 'D'`, but the call then
locks `board_mutex` again in `display_board()` and does not return.  In the scenario
X:(0,0)(0,1)(1,2)(2,0)(2,2), O:(0,2)(1,0)(1,1)(2,1) from the initial state the first
call stops there with the mutex held; after the nine calls the board holds one `'X'`,
the game is not over and `get_winner()` would give `' '`, not `'D'`. -/
theorem draw_scenario_stops_at_first_move :
    (run_locked ⟨TicTacToe.new, none⟩ draw_scenario).map
        (fun m => (m.board_mutex, m.game.game_over, m.game.get_winner, cells m.game.board))
      = some (some Actor.t1, false, ' ', ['X', ' ', ' ', ' ', ' ', ' ', ' ', ' ', ' ']) ∧
    make_move_locked Actor.t1 ⟨last_cell_draw, none⟩ 'X' 2 2
      = Progress.relock ⟨last_cell_draw.place 'X' 2 2, some Actor.t1⟩ ∧
    (last_cell_draw.place 'X' 2 2).game_over = true ∧
    (last_cell_draw.place 'X' 2 2).winner = 'D' :=
  ⟨by decide, rfl, by decide, by decide⟩

/-- C14 on the code: with `board_mutex` free, thread `t1` calling `make_move('X', 1, 1)`
on the fresh game writes `'X'` on (1,1), leaves the other eight cells, `game_over` and
`winner` as they were and flips `current_player` to `'O'`, but it does not return
`true`: it stops in `display_board()`, locking the mutex it holds. -/
theorem accepted_move_stops_in_display_board :
    make_move_locked Actor.t1 ⟨TicTacToe.new, none⟩ 'X' 1 1
      = Progress.relock ⟨TicTacToe.new.place 'X' 1 1, some Actor.t1⟩ ∧
    cells (TicTacToe.new.place 'X' 1 1).board = [' ', ' ', ' ', ' ', 'X', ' ', ' ', ' ', ' '] ∧
    (TicTacToe.new.place 'X' 1 1).game_over = false ∧
    (TicTacToe.new.place 'X' 1 1).winner = ' ' ∧
    (TicTacToe.new.place 'X' 1 1).current_player = 'O' :=
  ⟨rfl, by decide, by decide, by decide, by decide⟩

/-! ## The states the lock layer reaches -/

/-- A step of player2 leaves player1 where it is. -/
theorem TwoPlayers.step_t2_player1 (σ σ1 : TwoPlayers) (row col : Fin 3)
    (h : σ.step (Tick.t2 row col) = some σ1) : σ1.player1 = σ.player1 := by
  obtain ⟨g, p1, p2⟩ := σ
  cases p2 with
  | check =>
    simp only [TwoPlayers.step, Option.some.injEq] at h
    rw [← h]
  | call r c =>
    cases hm : g.make_move 'O' r c with
    | waiting => simp only [TwoPlayers.step, hm, Option.some.injEq] at h; rw [← h]
    | undefined => simp [TwoPlayers.step, hm] at h
    | returned b g1 => simp only [TwoPlayers.step, hm, Option.some.injEq] at h; rw [← h]
  | done =>
    simp only [TwoPlayers.step, Option.some.injEq] at h
    rw [← h]

/-- A step of player1 either changes nothing for player1 (its `make_move` stays
pending) or is a step of `play_sequential` on the answer of the game. -/
theorem TwoPlayers.step_t1_cases (σ σ1 : TwoPlayers) (h : σ.step Tick.t1 = some σ1) :
    (σ.events Tick.t1 = [] ∧ σ1.player1 = σ.player1) ∨
      ∃ a, σ.events Tick.t1 = (seq_step σ.player1 a).1 ∧
        σ1.player1 = (seq_step σ.player1 a).2 := by
  obtain ⟨g, p1, p2⟩ := σ
  cases p1 with
  | outer i =>
    simp only [TwoPlayers.step, Option.some.injEq] at h
    exact Or.inr ⟨g.is_game_over, rfl, by rw [← h]⟩
  | inner i j =>
    simp only [TwoPlayers.step, Option.some.injEq] at h
    exact Or.inr ⟨g.is_game_over, rfl, by rw [← h]⟩
  | call i j =>
    cases hm : g.make_move 'X' i j with
    | waiting =>
      simp only [TwoPlayers.step, hm, Option.some.injEq] at h
      exact Or.inl ⟨by simp [TwoPlayers.events, hm], by rw [← h]⟩
    | undefined => simp [TwoPlayers.step, hm] at h
    | returned b g1 =>
      simp only [TwoPlayers.step, hm, Option.some.injEq] at h
      exact Or.inr ⟨b, by simp [TwoPlayers.events, hm, seq_step], by rw [← h]⟩
  | done =>
    simp only [TwoPlayers.step, Option.some.injEq] at h
    exact Or.inr ⟨g.is_game_over, rfl, by rw [← h]⟩

/-- The events of player1 along a schedule are those of `play_sequential` for some
sequence of results. -/
theorem TwoPlayers.trace_eq_seq_events (ticks : List Tick) (σ : TwoPlayers) :
    ∃ answers, σ.trace ticks = seq_events σ.player1 answers := by
  induction ticks generalizing σ with
  | nil => exact ⟨[], rfl⟩
  | cons t rest ih =>
    cases hs : σ.step t with
    | none => exact ⟨[], by simp [TwoPlayers.trace, hs, seq_events]⟩
    | some σ1 =>
      obtain ⟨answers, ha⟩ := ih σ1
      simp only [TwoPlayers.trace, hs, ha]
      cases t with
      | t1 =>
        rcases TwoPlayers.step_t1_cases σ σ1 hs with ⟨he, hp⟩ | ⟨a, he, hp⟩
        · exact ⟨answers, by rw [he, hp]; rfl⟩
        · exact ⟨a :: answers, by rw [he, hp]; rfl⟩
      | t2 row col =>
        exact ⟨answers, by rw [TwoPlayers.step_t2_player1 σ σ1 row col hs]; rfl⟩

/-- An `is_game_over()` of player1 answers true only when the game is over. -/
theorem TwoPlayers.check_true_mem_events (σ : TwoPlayers) (t : Tick)
    (h : SeqEvent.check true ∈ σ.events t) : σ.game.game_over = true := by
  obtain ⟨g, p1, p2⟩ := σ
  cases t with
  | t2 row col => simp [TwoPlayers.events] at h
  | t1 =>
    cases p1 with
    | outer i =>
      simp only [TwoPlayers.events, seq_step, List.mem_singleton, SeqEvent.check.injEq] at h
      exact h.symm
    | inner i j =>
      cases hg : g.game_over with
      | true => rfl
      | false => simp [TwoPlayers.events, seq_step, TicTacToe.is_game_over, hg] at h
    | call i j =>
      cases hm : g.make_move 'X' i j <;> simp [TwoPlayers.events, hm] at h
    | done => simp [TwoPlayers.events, seq_step] at h

/-- Once the game is over a scheduling step leaves the game as it is, and player1
sees only `is_game_over()` answering true. -/
theorem TwoPlayers.step_game_over (σ σ1 : TwoPlayers) (t : Tick)
    (hg : σ.game.game_over = true) (h : σ.step t = some σ1) :
    σ1.game = σ.game ∧ ∀ e ∈ σ.events t, e = SeqEvent.check true := by
  obtain ⟨g, p1, p2⟩ := σ
  simp only at hg
  have hX : g.make_move 'X' = fun _ _ => MoveResult.waiting := by
    funext i j
    exact make_move_blocked g _ _ _ (by simp [TicTacToe.turn_pred, hg])
  have hO : g.make_move 'O' = fun _ _ => MoveResult.waiting := by
    funext i j
    exact make_move_blocked g _ _ _ (by simp [TicTacToe.turn_pred, hg])
  cases t with
  | t1 =>
    cases p1 with
    | outer i =>
      simp only [TwoPlayers.step, Option.some.injEq] at h
      exact ⟨by rw [← h], by simp [TwoPlayers.events, seq_step, TicTacToe.is_game_over, hg]⟩
    | inner i j =>
      simp only [TwoPlayers.step, Option.some.injEq] at h
      exact ⟨by rw [← h], by simp [TwoPlayers.events, seq_step, TicTacToe.is_game_over, hg]⟩
    | call i j =>
      simp only [TwoPlayers.step, hX, Option.some.injEq] at h
      exact ⟨by rw [← h], by simp [TwoPlayers.events, hX]⟩
    | done =>
      simp only [TwoPlayers.step, Option.some.injEq] at h
      exact ⟨by rw [← h], by simp [TwoPlayers.events, seq_step]⟩
  | t2 row col =>
    refine ⟨?_, by simp [TwoPlayers.events]⟩
    cases p2 with
    | check =>
      simp only [TwoPlayers.step, Option.some.injEq] at h
      rw [← h]
    | call r c =>
      simp only [TwoPlayers.step, hO, Option.some.injEq] at h
      rw [← h]
    | done =>
      simp only [TwoPlayers.step, Option.some.injEq] at h
      rw [← h]

/-- Once the game is over, player1 starts no call of `make_move`: all it does is see
`is_game_over()` answer true. -/
theorem TwoPlayers.trace_game_over (ticks : List Tick) (σ : TwoPlayers)
    (hg : σ.game.game_over = true) : ∀ e ∈ σ.trace ticks, e = SeqEvent.check true := by
  induction ticks generalizing σ with
  | nil => simp [TwoPlayers.trace]
  | cons t rest ih =>
    cases hs : σ.step t with
    | none => simp [TwoPlayers.trace, hs]
    | some σ1 =>
      obtain ⟨hgame, hev⟩ := TwoPlayers.step_game_over σ σ1 t hg hs
      intro e he
      simp only [TwoPlayers.trace, hs, List.mem_append] at he
      rcases he with he | he
      · exact hev e he
      · exact ih σ1 (by rw [hgame]; exact hg) e he

/-- In the game, no call of `make_move` by player1 follows an `is_game_over()` that
answered true. -/
theorem TwoPlayers.no_attempt_after_over (ticks : List Tick) :
    ∀ (σ : TwoPlayers) (l1 l2 : List SeqEvent),
      σ.trace ticks = l1 ++ SeqEvent.check true :: l2 → ∀ i j, SeqEvent.attempt i j ∉ l2 := by
  induction ticks with
  | nil =>
    intro σ l1 l2 h
    simp [TwoPlayers.trace] at h
  | cons t rest ih =>
    intro σ l1 l2 h i j
    cases hs : σ.step t with
    | none => simp [TwoPlayers.trace, hs] at h
    | some σ1 =>
      simp only [TwoPlayers.trace, hs] at h
      rcases List.append_eq_append_iff.1 h with ⟨a', -, h2⟩ | ⟨c', h1, h2⟩
      · exact ih σ1 a' l2 h2 i j
      · cases c' with
        | nil =>
          simp only [List.nil_append] at h2
          exact ih σ1 [] l2 h2.symm i j
        | cons e c'' =>
          simp only [List.cons_append, List.cons.injEq] at h2
          obtain ⟨he, hl2⟩ := h2
          subst he
          have hmem : SeqEvent.check true ∈ σ.events t := by
            rw [h1]; simp
          have hg := TwoPlayers.check_true_mem_events σ t hmem
          obtain ⟨hgame, hev⟩ := TwoPlayers.step_game_over σ σ1 t hg hs
          intro hin
          rw [hl2, List.mem_append] at hin
          rcases hin with hin | hin
          · have := hev (SeqEvent.attempt i j) (by rw [h1]; simp [hin])
            cases this
          · have := TwoPlayers.trace_game_over rest σ1 (by rw [hgame]; exact hg) _ hin
            cases this

/-- C15: for every sequence of true/false results of `make_move` and of
`is_game_over`, the coordinates `play_sequential` passes to `make_move` are a
subsequence of the raster order (0,0), (0,1), ..., (2,2): each is in [0,2]x[0,2],
they increase strictly in raster order, no cell is attempted twice, and there are at
most 9 of them.  In every behaviour of the game (every schedule of the two threads
and every draw of the opponent) the same holds, and no attempt is made after an
`is_game_over()` check returned true. -/
theorem sequential_attempts_in_game :
    (∀ answers : List Bool,
      (attempts (seq_events (SeqPc.outer 0) answers)).Sublist raster ∧
      (∀ p ∈ attempts (seq_events (SeqPc.outer 0) answers), p.1 < 3 ∧ p.2 < 3) ∧
      (attempts (seq_events (SeqPc.outer 0) answers)).Pairwise
        (fun p q => 3 * p.1 + p.2 < 3 * q.1 + q.2) ∧
      (attempts (seq_events (SeqPc.outer 0) answers)).Nodup ∧
      (attempts (seq_events (SeqPc.outer 0) answers)).length ≤ 9) ∧
    (∀ ticks : List Tick,
      (attempts (TwoPlayers.start.trace ticks)).Sublist raster ∧
      (∀ p ∈ attempts (TwoPlayers.start.trace ticks), p.1 < 3 ∧ p.2 < 3) ∧
      (attempts (TwoPlayers.start.trace ticks)).Pairwise
        (fun p q => 3 * p.1 + p.2 < 3 * q.1 + q.2) ∧
      (attempts (TwoPlayers.start.trace ticks)).Nodup ∧
      (attempts (TwoPlayers.start.trace ticks)).length ≤ 9 ∧
      (∀ l1 l2, TwoPlayers.start.trace ticks = l1 ++ SeqEvent.check true :: l2 →
        ∀ i j, SeqEvent.attempt i j ∉ l2)) := by
  have hall : ∀ answers : List Bool,
      (attempts (seq_events (SeqPc.outer 0) answers)).Sublist raster ∧
      (∀ p ∈ attempts (seq_events (SeqPc.outer 0) answers), p.1 < 3 ∧ p.2 < 3) ∧
      (attempts (seq_events (SeqPc.outer 0) answers)).Pairwise
        (fun p q => 3 * p.1 + p.2 < 3 * q.1 + q.2) ∧
      (attempts (seq_events (SeqPc.outer 0) answers)).Nodup ∧
      (attempts (seq_events (SeqPc.outer 0) answers)).length ≤ 9 := by
    intro answers
    have hsub : (attempts (seq_events (SeqPc.outer 0) answers)).Sublist raster :=
      attempts_sublist answers (SeqPc.outer 0) (show 0 < 3 by decide)
    refine ⟨hsub, ?_, List.Pairwise.sublist hsub (by decide),
      List.Nodup.sublist hsub (by decide), hsub.length_le⟩
    intro p hp
    have hr : ∀ q ∈ raster, q.1 < 3 ∧ q.2 < 3 := by decide
    exact hr p (hsub.subset hp)
  refine ⟨hall, fun ticks => ?_⟩
  obtain ⟨answers, ha⟩ := TwoPlayers.trace_eq_seq_events ticks TwoPlayers.start
  have hstart : TwoPlayers.start.player1 = SeqPc.outer 0 := rfl
  rw [hstart] at ha
  obtain ⟨h1, h2, h3, h4, h5⟩ := hall answers
  rw [← ha] at h1 h2 h3 h4 h5
  exact ⟨h1, h2, h3, h4, h5,
    fun l1 l2 h i j => TwoPlayers.no_attempt_after_over ticks TwoPlayers.start l1 l2 h i j⟩

/-- C15 at a concrete input: in `opponent_wins_schedule` player1 attempts (0,0),
(0,1), (0,2), (1,0); then `O` wins, the inner loop condition for (1,1) and the outer
loop condition for row 2 both see the game over, and nothing more is attempted. -/
theorem sequential_attempts_in_game_witness :
    attempts (TwoPlayers.start.trace opponent_wins_schedule)
        = [(0, 0), (0, 1), (0, 2), (1, 0)] ∧
      results (TwoPlayers.start.trace opponent_wins_schedule) = [true, false, true, true] ∧
      ∀ i j, SeqEvent.attempt i j ∉ [SeqEvent.check true] :=
  ⟨by decide, by decide,
    (sequential_attempts_in_game.2 opponent_wins_schedule).2.2.2.2.2
      [SeqEvent.check false, SeqEvent.check false, SeqEvent.attempt 0 0, SeqEvent.result true,
       SeqEvent.check false, SeqEvent.attempt 0 1, SeqEvent.result false,
       SeqEvent.check false, SeqEvent.attempt 0 2, SeqEvent.result true,
       SeqEvent.check false, SeqEvent.check false, SeqEvent.attempt 1 0, SeqEvent.result true]
      [SeqEvent.check true] (by decide)⟩

